import Mathlib

/-!
Verification development for the mockturtle `aqfp_view` (fan-out tracking,
level/depth computation and AQFP buffering accounting over a logic network).

The view itself (`include/mockturtle/views/aqfp_view.hpp`) is translated
directly.  The collaborators it uses that are not part of the analysed
sources — the graph substrate (`mig_network` mutation primitives and its
event delivery) and the level engine (`depth_view`) — are modelled from the
specification; every such definition carries a doc comment beginning with
`Modelled from the spec:`.

Machine integers: the view stores and returns `uint32_t` quantities, so the
arithmetic of `level`, `num_splitters` and `num_buffers` is modelled with an
explicit modulus 2^32 (`U32`, `uadd`, `usub`).  The level engine is modelled
over `Nat`, following the specification's data model (`integer ≥ 0`).
-/

namespace Mockturtle

/-- A signal of the logic network: a node identifier together with a
complementation (inversion) bit, as in mockturtle's `signal`. -/
structure Signal where
  node : Nat
  compl : Bool
deriving DecidableEq

/-- The graph substrate: per-node fan-in signal lists (index = node id;
primary inputs, constants and dead nodes have an empty fan-in list) and the
primary output signals.  Gates are exactly the nodes with a non-empty
fan-in list; `foreach_gate` enumerates them in ascending index order and
`foreach_fanin` follows list order, matching the substrate's stable
enumeration order. -/
structure Network where
  fanins : List (List Signal)
  outputs : List Signal
deriving DecidableEq

/-- Number of node slots of the substrate (`ntk.size()`). -/
def Network.size (N : Network) : Nat := N.fanins.length

/-- Fan-in nodes of node `m` (the nodes visited by `foreach_fanin`,
forgetting polarities, which is how `node_map` indexes by a signal). -/
def gateFanins (N : Network) (m : Nat) : List Nat :=
  (N.fanins.getD m []).map Signal.node

/-- Gate classification: a node with at least one fan-in. -/
def isGate (N : Network) (m : Nat) : Bool :=
  !(N.fanins.getD m []).isEmpty

/-- The gates of the network in `foreach_gate` enumeration order. -/
def gates (N : Network) : List Nat :=
  (List.range N.size).filter (isGate N)

/-- Topological indexing of the substrate: every fan-in of a node has a
strictly smaller node id (mockturtle networks create fan-ins before their
consumers). -/
def Topo (N : Network) : Prop :=
  ∀ m, m < N.size → ∀ t ∈ N.fanins.getD m [], t.node < m

/-- Update of one entry of a node-indexed table of lists. -/
def updF (F : List (List Nat)) (c : Nat) (g : List Nat → List Nat) :
    List (List Nat) :=
  F.set c (g (F.getD c []))

/-- Fold of `updF` with the same list transformer over a list of indices. -/
def foldUpd (g : List Nat → List Nat) (F : List (List Nat)) (cs : List Nat) :
    List (List Nat) :=
  cs.foldl (fun F c => updF F c g) F

/-- Append with duplicate suppression by linear scan, as the `std::find`
check inside `aqfp_view::compute_fanout`. -/
def pushUnique (m : Nat) (l : List Nat) : List Nat :=
  if m ∈ l then l else l ++ [m]

/-- From `aqfp_view::compute_fanout`: reset the table, then for every gate
`n` in enumeration order and every fan-in `c` of `n`, append `n` to the
fan-out list of `c` unless it is already present. -/
def compute_fanout (N : Network) : List (List Nat) :=
  (gates N).foldl
    (fun F m => foldUpd (pushUnique m) F (gateFanins N m))
    (List.replicate N.size [])

/-- Modulus of `uint32_t` arithmetic. -/
def U32 : Nat := 4294967296

/-- Wrapping `uint32_t` addition. -/
def uadd (a b : Nat) : Nat := (a + b) % U32

/-- Wrapping `uint32_t` subtraction. -/
def usub (a b : Nat) : Nat := (a % U32 + (U32 - b % U32)) % U32

/-- From `aqfp_view::num_splitter_levels`: additional depth caused by the
splitters of node `n`, for splitter capacity `C`. -/
def num_splitter_levels (C : Nat) (F : List (List Nat)) (n : Nat) : Nat :=
  if (F.getD n []).length > C then 2
  else if (F.getD n []).length > 1 then 1
  else 0

/-- From `aqfp_view::num_splitters`: number of splitters at the fan-out of
node `n` (the above-capacity branch always fills the second splitter layer;
the `uint32_t` addition wraps). -/
def num_splitters (C : Nat) (F : List (List Nat)) (n : Nat) : Nat :=
  if (F.getD n []).length ≤ 1 then 0
  else if (F.getD n []).length ≤ C then 1
  else (C + 1) % U32

/-- Modelled from the spec: the level engine (`depth_view`, not among the
analysed sources).  It computes, for every node, a longest-path level with a
caller-supplied extra cost: a node with no fan-ins has level 0, and a gate's
level is the maximum of its fan-ins' levels plus the cost charged for the
node (here the cost function is `aqfp_view::node_depth`, which charges
`num_splitter_levels n + 1`, so a node's own buffering tree is charged to
its stored level; the view's `level` then subtracts it back out, which is
what makes the stored level "the highest level of its splitters" and the
subtracted level "the level of the node itself" as the source comments
say).  `fuel` bounds the recursion; with a topologically indexed network,
fuel `n + 1` is always sufficient for node `n`. -/
def levelAux (N : Network) (cost : Nat → Nat) : Nat → Nat → Nat
  | 0, _ => 0
  | fuel + 1, n =>
    if (N.fanins.getD n []).isEmpty then 0
    else ((N.fanins.getD n []).map (fun t => levelAux N cost fuel t.node)).foldr
        Nat.max 0 + cost n

/-- Modelled from the spec: level of node `n` under cost function `cost`. -/
def dvLevelC (N : Network) (cost : Nat → Nat) (n : Nat) : Nat :=
  levelAux N cost (n + 1) n

/-- The level table `L` produced by `update_levels` with the
`aqfp_view::node_depth` cost function reading the fan-out table `F`. -/
def dvLevel (N : Network) (C : Nat) (F : List (List Nat)) (n : Nat) : Nat :=
  dvLevelC N (fun m => num_splitter_levels C F m + 1) n

/-- From `aqfp_view::level`: the level of node `n` itself, obtained from
the stored level by a `uint32_t` subtraction of the node's splitter
levels (which wraps for a primary input with more than one fan-out). -/
def level (N : Network) (C : Nat) (F : List (List Nat)) (n : Nat) : Nat :=
  usub (dvLevel N C F n) (num_splitter_levels C F n)

/-- Modelled from the spec: circuit depth, the maximum stored level over
all nodes. -/
def depth (N : Network) (C : Nat) (F : List (List Nat)) : Nat :=
  ((List.range N.size).map (dvLevel N C F)).foldr Nat.max 0

/-- From `aqfp_view::num_buffers(node)`: buffers between `n` and its
fan-outs plus the splitters of `n`, in `uint32_t` arithmetic. -/
def num_buffers_node (N : Network) (C : Nat) (F : List (List Nat)) (n : Nat) :
    Nat :=
  let nlevel := uadd (level N C F n) (num_splitter_levels C F n)
  uadd
    ((F.getD n []).foldl
      (fun cnt fo => uadd cnt (usub (usub (level N C F fo) nlevel) 1)) 0)
    (num_splitters C F n)

/-- From `aqfp_view::num_buffers()`: total buffer/splitter count, summing
`num_buffers` over all gates in `uint32_t` arithmetic. -/
def num_buffers (N : Network) (C : Nat) (F : List (List Nat)) : Nat :=
  (gates N).foldl (fun cnt n => uadd cnt (num_buffers_node N C F n)) 0

/-- The specification's per-node buffer formula, read in exact
natural-number arithmetic: the sum over the direct consumers `fo` of `n` of
`level fo - (level n + stages n) - 1`, plus the splitter-cell count. -/
def spec_node_buffers (N : Network) (C : Nat) (F : List (List Nat)) (n : Nat) :
    Nat :=
  ((F.getD n []).map
      (fun fo => level N C F fo - (level N C F n + num_splitter_levels C F n) - 1)).sum
    + num_splitters C F n

/-- Remove every occurrence of `n` from a fan-out list, as the
erase/remove idiom in the on_modified and on_delete handlers. -/
def eraseAll (n : Nat) (l : List Nat) : List Nat :=
  l.filter (fun x => decide (¬ x = n))

/-- From the on_add event handler registered by the `aqfp_view`
constructor: for each fan-in `c` of the new node `n`, append `n` to the
fan-out list of `c` (no duplicate check). -/
def on_add_hook (F : List (List Nat)) (n : Nat) (fins : List Nat) :
    List (List Nat) :=
  foldUpd (fun l => l ++ [n]) F fins

/-- From the on_modified event handler: erase all occurrences of `n` from
the fan-out list of every previous fan-in, then append `n` to the fan-out
list of every current fan-in. -/
def on_modified_hook (F : List (List Nat)) (n : Nat) (prev cur : List Nat) :
    List (List Nat) :=
  foldUpd (fun l => l ++ [n]) (foldUpd (eraseAll n) F prev) cur

/-- From the on_delete event handler: clear the fan-out list of `n`, then
erase `n` from the fan-out list of each of its fan-ins. -/
def on_delete_hook (F : List (List Nat)) (n : Nat) (fins : List Nat) :
    List (List Nat) :=
  foldUpd (eraseAll n) (updF F n (fun _ => [])) fins

/-- Modelled from the spec: the substrate mutations that trigger the three
event hooks.  An add event carries the fresh node and its fan-in nodes, a
modify event carries the node, its previous fan-in nodes and its current
fan-in nodes, a delete event carries the node and its fan-in nodes at
deletion time. -/
inductive MutEvent where
  | addNode (n : Nat) (fins : List Nat)
  | modifyNode (n : Nat) (prev cur : List Nat)
  | deleteNode (n : Nat) (fins : List Nat)

/-- Modelled from the spec: effect of a mutation on the substrate's
fan-in table (node-level view of the fan-ins). -/
def applyMut (sub : List (List Nat)) : MutEvent → List (List Nat)
  | .addNode n fins => sub.set n fins
  | .modifyNode n _ cur => sub.set n cur
  | .deleteNode n _ => sub.set n []

/-- Dispatch of a delivered event to the hook registered for it. -/
def applyHook (F : List (List Nat)) : MutEvent → List (List Nat)
  | .addNode n fins => on_add_hook F n fins
  | .modifyNode n prev cur => on_modified_hook F n prev cur
  | .deleteNode n fins => on_delete_hook F n fins

/-- Modelled from the spec: the substrate's event contract.  An added node
is fresh (it had no fan-ins) and its fan-in list repeats no node; a
modified node reports its actual previous fan-ins and acquires a
repetition-free fan-in list not containing itself; a deleted node reports
its actual fan-ins, is not its own fan-in, and has no remaining
consumer. -/
def validMut (sub : List (List Nat)) : MutEvent → Prop
  | .addNode n fins =>
      n < sub.length ∧ sub.getD n [] = [] ∧ n ∉ fins ∧ fins.Nodup
  | .modifyNode n prev cur =>
      n < sub.length ∧ prev = sub.getD n [] ∧ n ∉ cur ∧ n ∉ prev ∧ cur.Nodup
  | .deleteNode n fins =>
      n < sub.length ∧ fins = sub.getD n [] ∧ n ∉ fins ∧
        ∀ m, m < sub.length → n ∉ sub.getD m []

/-- A sequence of events each valid in the substrate state it meets. -/
def validSeq (sub : List (List Nat)) : List MutEvent → Prop
  | [] => True
  | e :: es => validMut sub e ∧ validSeq (applyMut sub e) es

/-- Exactness of the fan-out table with respect to a substrate fan-in
table: the tables have equal size, every fan-out list is duplicate-free,
each recorded consumer is a valid node that really has the indexed node as
a fan-in, and every valid node having the indexed node as fan-in is
recorded. -/
def ExactF (sub F : List (List Nat)) : Prop :=
  F.length = sub.length ∧
  ∀ c, c < F.length →
    (F.getD c []).Nodup ∧
    (∀ m ∈ F.getD c [], m < F.length ∧ c ∈ sub.getD m []) ∧
    (∀ m, m < F.length → c ∈ sub.getD m [] → m ∈ F.getD c [])

/-- Node-level fan-in table of a network (what `ExactF` compares the
fan-out table against). -/
def subOf (N : Network) : List (List Nat) :=
  N.fanins.map (List.map Signal.node)

/-- Modelled from the spec: polarity composition when a signal occurrence
of `oldN` is rewired to `s` — the invert bits combine by XOR. -/
def composeSig (oldN : Nat) (s t : Signal) : Signal :=
  if t.node = oldN then ⟨s.node, xor t.compl s.compl⟩ else t

/-- Modelled from the spec: substrate primitive `replace_in_node`, in the
branch that returns no follow-up retirement pair — every occurrence of
`oldN` in the fan-in list of `m` is replaced by `s` with XOR-composed
polarity. -/
def replace_in_node (N : Network) (m oldN : Nat) (s : Signal) : Network :=
  ⟨N.fanins.set m ((N.fanins.getD m []).map (composeSig oldN s)), N.outputs⟩

/-- Modelled from the spec: substrate primitive `replace_in_outputs`. -/
def replace_in_outputs (N : Network) (oldN : Nat) (s : Signal) : Network :=
  ⟨N.fanins, N.outputs.map (composeSig oldN s)⟩

/-- Modelled from the spec: substrate primitive `take_out_node` — the
node's own fan-in edges are removed. -/
def take_out_node (N : Network) (oldN : Nat) : Network :=
  ⟨N.fanins.set oldN [], N.outputs⟩

/-- One parent rewiring step of `substitute_node`: the substrate's
`replace_in_node` together with the synchronously delivered on_modified
event processed by the view's hook. -/
def substParent (oldN : Nat) (s : Signal) (st : Network × List (List Nat))
    (m : Nat) : Network × List (List Nat) :=
  let prev := gateFanins st.1 m
  let N1 := replace_in_node st.1 m oldN s
  (N1, on_modified_hook st.2 m prev (gateFanins N1 m))

/-- From `aqfp_view::substitute_node`, in the case where no
`replace_in_node` call returns a further retirement pair (so the work
stack processes exactly the seeded pair): snapshot the parents from the
fan-out table, rewire each parent, rewire the primary outputs, then take
out the old node — with the substrate's on_modified and on_delete events
delivered synchronously to the view's hooks. -/
def substitute_node (N : Network) (F : List (List Nat)) (oldN : Nat)
    (s : Signal) : Network × List (List Nat) :=
  let st := (F.getD oldN []).foldl (substParent oldN s) (N, F)
  let N2 := replace_in_outputs st.1 oldN s
  (take_out_node N2 oldN, on_delete_hook st.2 oldN (gateFanins N2 oldN))

/-- Construction parameters of the view (`aqfp_view_params`). -/
structure AqfpParams where
  update_on_add : Bool
  update_on_modified : Bool
  update_on_delete : Bool
  splitter_capacity : Nat
  max_splitter_levels : Nat
deriving DecidableEq

/-- Capabilities of the substrate type checked by the constructor's
static asserts. -/
structure NtkTraits where
  has_depth : Bool
  has_level : Bool
  has_update_levels : Bool
  has_foreach_node : Bool
  has_foreach_fanin : Bool
deriving DecidableEq

/-- From the `aqfp_view` constructor: construction fails exactly when a
static assert fires — the substrate already has depth/level interfaces, or
lacks node/fan-in enumeration.  The parameter record is stored without any
validation (in particular `max_splitter_levels` is never checked), and on
success the initial `update_fanout` computes the fan-out table. -/
def aqfp_construct (t : NtkTraits) (_ps : AqfpParams) (N : Network) :
    Option (List (List Nat)) :=
  if t.has_depth || t.has_level || t.has_update_levels
      || !t.has_foreach_node || !t.has_foreach_fanin then none
  else some (compute_fanout N)

/-- Example network: a primary input driving a two-gate chain whose middle
node has two consumers. -/
def netSplit : Network :=
  ⟨[[], [⟨0, false⟩], [⟨1, false⟩], [⟨1, false⟩]], []⟩

/-- Example network: a primary input with two consumers, one of which sits
at stored level 2. -/
def netPiFan : Network :=
  ⟨[[], [⟨0, false⟩], [⟨1, false⟩, ⟨0, false⟩]], []⟩

/-- Example network: a primary input driving a single gate. -/
def netChain1 : Network :=
  ⟨[[], [⟨0, false⟩]], []⟩

/-- Example network: a three-node path, used for level and buffering
witnesses. -/
def netChain2 : Network :=
  ⟨[[], [⟨0, false⟩], [⟨1, false⟩]], []⟩

/-- Example network: a gate driving only primary outputs. -/
def netPoOnly : Network :=
  ⟨[[], [⟨0, false⟩]], [⟨1, false⟩, ⟨1, true⟩]⟩

/-- Example network for substitution: two primary inputs, a gate `2` over
both, a gate `3` over `2` and `1`, one primary output on `3` and one on
`2`. -/
def netSubst : Network :=
  ⟨[[], [], [⟨0, false⟩, ⟨1, false⟩], [⟨2, true⟩, ⟨1, false⟩]],
   [⟨3, false⟩, ⟨2, false⟩]⟩

/-- Trait record satisfying all constructor static asserts. -/
def traitsOk : NtkTraits := ⟨false, false, false, true, true⟩

/-- Parameter record requesting three buffering stages. -/
def paramsThreeStages : AqfpParams := ⟨true, true, true, 4, 3⟩

instance decTopo (N : Network) : Decidable (Topo N) := by
  unfold Topo
  infer_instance

instance decValidMut (sub : List (List Nat)) :
    (e : MutEvent) → Decidable (validMut sub e)
  | .addNode n fins => by unfold validMut; infer_instance
  | .modifyNode n prev cur => by unfold validMut; infer_instance
  | .deleteNode n fins => by unfold validMut; infer_instance

instance decValidSeq (sub : List (List Nat)) :
    (es : List MutEvent) → Decidable (validSeq sub es)
  | [] => .isTrue trivial
  | e :: es =>
    have : Decidable (validSeq (applyMut sub e) es) :=
      decValidSeq (applyMut sub e) es
    by unfold validSeq; infer_instance

instance decExactF (sub F : List (List Nat)) : Decidable (ExactF sub F) := by
  unfold ExactF
  infer_instance

theorem getD_set_self {α : Type} (x d : α) :
    ∀ (l : List α) (c : Nat), c < l.length → (l.set c x).getD c d = x := by
  intro l
  induction l with
  | nil => intro c h; simp at h
  | cons a t ih =>
    intro c h
    cases c with
    | zero => rfl
    | succ k => exact ih k (by simpa using h)

theorem getD_set_ne {α : Type} (x d : α) :
    ∀ (l : List α) (c c' : Nat), c ≠ c' → (l.set c x).getD c' d = l.getD c' d := by
  intro l
  induction l with
  | nil => intro c c' _; rfl
  | cons a t ih =>
    intro c c' hne
    cases c with
    | zero =>
      cases c' with
      | zero => exact absurd rfl hne
      | succ k => rfl
    | succ j =>
      cases c' with
      | zero => rfl
      | succ k => exact ih j k (fun h => hne (by rw [h]))

theorem getD_of_len_le {α : Type} (d : α) :
    ∀ (l : List α) (c : Nat), l.length ≤ c → l.getD c d = d := by
  intro l
  induction l with
  | nil => intro c _; cases c <;> rfl
  | cons a t ih =>
    intro c h
    cases c with
    | zero => simp at h
    | succ k => exact ih k (by simpa using h)

theorem getD_replicate_nil :
    ∀ (k c : Nat), (List.replicate k ([] : List Nat)).getD c [] = [] := by
  intro k
  induction k with
  | zero => intro c; cases c <;> rfl
  | succ j ih =>
    intro c
    cases c with
    | zero => rfl
    | succ m => exact ih m

theorem getD_subOf (N : Network) (m : Nat) :
    (subOf N).getD m [] = gateFanins N m := by
  unfold subOf gateFanins
  generalize N.fanins = L
  induction L generalizing m with
  | nil => cases m <;> rfl
  | cons a t ih =>
    cases m with
    | zero => rfl
    | succ k => exact ih k

theorem length_updF (F : List (List Nat)) (c : Nat) (g : List Nat → List Nat) :
    (updF F c g).length = F.length := by
  simp [updF]

theorem getD_updF_self (F : List (List Nat)) (c : Nat)
    (g : List Nat → List Nat) (h : c < F.length) :
    (updF F c g).getD c [] = g (F.getD c []) :=
  getD_set_self _ _ F c h

theorem getD_updF_ne (F : List (List Nat)) (c c' : Nat)
    (g : List Nat → List Nat) (h : c ≠ c') :
    (updF F c g).getD c' [] = F.getD c' [] :=
  getD_set_ne _ _ F c c' h

theorem length_foldUpd (g : List Nat → List Nat) :
    ∀ (cs : List Nat) (F : List (List Nat)),
      (foldUpd g F cs).length = F.length := by
  intro cs
  induction cs with
  | nil => intro F; rfl
  | cons c cs ih =>
    intro F
    simp only [foldUpd, List.foldl_cons]
    rw [show (cs.foldl (fun F c => updF F c g) (updF F c g)) =
        foldUpd g (updF F c g) cs from rfl, ih, length_updF]

theorem getD_foldUpd_not_mem (g : List Nat → List Nat) :
    ∀ (cs : List Nat) (F : List (List Nat)) (c : Nat), c ∉ cs →
      (foldUpd g F cs).getD c [] = F.getD c [] := by
  intro cs
  induction cs with
  | nil => intro F c _; rfl
  | cons c0 cs ih =>
    intro F c hc
    have hne : c0 ≠ c := fun h => hc (h ▸ List.mem_cons_self c0 cs)
    simp only [foldUpd, List.foldl_cons]
    rw [show (cs.foldl (fun F c => updF F c g) (updF F c0 g)) =
        foldUpd g (updF F c0 g) cs from rfl]
    rw [ih (updF F c0 g) c (fun h => hc (List.mem_cons_of_mem _ h))]
    exact getD_updF_ne F c0 c g hne

theorem getD_foldUpd_nodup_mem (g : List Nat → List Nat) :
    ∀ (cs : List Nat) (F : List (List Nat)) (c : Nat), cs.Nodup → c ∈ cs →
      c < F.length → (foldUpd g F cs).getD c [] = g (F.getD c []) := by
  intro cs
  induction cs with
  | nil => intro F c _ hc; simp at hc
  | cons c0 cs ih =>
    intro F c hnd hc hlt
    simp only [foldUpd, List.foldl_cons]
    rw [show (cs.foldl (fun F c => updF F c g) (updF F c0 g)) =
        foldUpd g (updF F c0 g) cs from rfl]
    rcases List.mem_cons.mp hc with h | h
    · subst h
      have hnot : c ∉ cs := (List.nodup_cons.mp hnd).1
      rw [getD_foldUpd_not_mem g cs _ c hnot]
      exact getD_updF_self F c g hlt
    · by_cases he : c0 = c
      · subst he
        exact absurd h (List.nodup_cons.mp hnd).1
      · rw [ih (updF F c0 g) c (List.nodup_cons.mp hnd).2 h
          (by rw [length_updF]; exact hlt)]
        rw [getD_updF_ne F c0 c g he]

theorem getD_foldUpd_idem (g : List Nat → List Nat)
    (hg : ∀ l, g (g l) = g l) :
    ∀ (cs : List Nat) (F : List (List Nat)) (c : Nat), c ∈ cs →
      c < F.length → (foldUpd g F cs).getD c [] = g (F.getD c []) := by
  intro cs
  induction cs with
  | nil => intro F c hc; simp at hc
  | cons c0 cs ih =>
    intro F c hc hlt
    simp only [foldUpd, List.foldl_cons]
    rw [show (cs.foldl (fun F c => updF F c g) (updF F c0 g)) =
        foldUpd g (updF F c0 g) cs from rfl]
    by_cases he : c0 = c
    · subst he
      by_cases hm : c0 ∈ cs
      · rw [ih (updF F c0 g) c0 hm (by rw [length_updF]; exact hlt)]
        rw [getD_updF_self F c0 g hlt, hg]
      · rw [getD_foldUpd_not_mem g cs _ c0 hm]
        exact getD_updF_self F c0 g hlt
    · have hm : c ∈ cs := by
        rcases List.mem_cons.mp hc with h | h
        · exact absurd h.symm he
        · exact h
      rw [ih (updF F c0 g) c hm (by rw [length_updF]; exact hlt)]
      rw [getD_updF_ne F c0 c g he]

theorem mem_getD_foldUpd (g : List Nat → List Nat) (x : Nat)
    (hg : ∀ l, x ∈ g l ↔ x ∈ l) :
    ∀ (cs : List Nat) (F : List (List Nat)) (c : Nat),
      (x ∈ (foldUpd g F cs).getD c [] ↔ x ∈ F.getD c []) := by
  intro cs
  induction cs with
  | nil => intro F c; exact Iff.rfl
  | cons c0 cs ih =>
    intro F c
    simp only [foldUpd, List.foldl_cons]
    rw [show (cs.foldl (fun F c => updF F c g) (updF F c0 g)) =
        foldUpd g (updF F c0 g) cs from rfl]
    rw [ih (updF F c0 g) c]
    by_cases he : c0 = c
    · subst he
      by_cases hlt : c0 < F.length
      · rw [getD_updF_self F c0 g hlt]; exact hg _
      · unfold updF
        rw [List.set_eq_of_length_le (Nat.le_of_not_lt hlt)]
    · rw [getD_updF_ne F c0 c g he]

theorem mem_eraseAll (n x : Nat) (l : List Nat) :
    x ∈ eraseAll n l ↔ x ∈ l ∧ x ≠ n := by
  unfold eraseAll
  simp [List.mem_filter]

theorem not_mem_eraseAll (n : Nat) (l : List Nat) : n ∉ eraseAll n l := by
  intro h
  exact ((mem_eraseAll n n l).mp h).2 rfl

theorem eraseAll_idem (n : Nat) (l : List Nat) :
    eraseAll n (eraseAll n l) = eraseAll n l := by
  unfold eraseAll
  rw [List.filter_filter]
  congr 1
  funext x
  cases decide (¬ x = n) <;> rfl

theorem nodup_eraseAll (n : Nat) (l : List Nat) (h : l.Nodup) :
    (eraseAll n l).Nodup :=
  List.Nodup.filter _ h

theorem nodup_append_single (l : List Nat) (a : Nat) (h1 : l.Nodup)
    (h2 : a ∉ l) : (l ++ [a]).Nodup := by
  rw [List.nodup_append]
  refine ⟨h1, List.nodup_singleton a, ?_⟩
  intro x hx hxa
  rw [List.mem_singleton] at hxa
  exact h2 (hxa ▸ hx)

theorem getD_fold_push (m : Nat) :
    ∀ (fins : List Nat) (F : List (List Nat)) (c : Nat), c < F.length →
      (foldUpd (pushUnique m) F fins).getD c [] =
        if c ∈ fins ∧ m ∉ F.getD c [] then F.getD c [] ++ [m]
        else F.getD c [] := by
  intro fins
  induction fins with
  | nil =>
    intro F c _
    simp [foldUpd]
  | cons f rest ih =>
    intro F c hlt
    simp only [foldUpd, List.foldl_cons]
    rw [show (rest.foldl (fun F c => updF F c (pushUnique m)) (updF F f (pushUnique m))) =
        foldUpd (pushUnique m) (updF F f (pushUnique m)) rest from rfl]
    have hlt1 : c < (updF F f (pushUnique m)).length := by
      rw [length_updF]; exact hlt
    rw [ih (updF F f (pushUnique m)) c hlt1]
    by_cases he : f = c
    · subst he
      rw [getD_updF_self F f (pushUnique m) hlt]
      unfold pushUnique
      by_cases hm : m ∈ F.getD f []
      · rw [if_pos hm]
        by_cases hr : f ∈ rest ∧ m ∉ F.getD f []
        · exact absurd hm hr.2
        · rw [if_neg hr, if_neg (fun h => h.2 hm)]
      · rw [if_neg hm]
        have hmm : m ∈ F.getD f [] ++ [m] := by
          simp
        rw [if_neg (fun h => h.2 hmm)]
        rw [if_pos ⟨List.mem_cons_self f rest, hm⟩]
    · rw [getD_updF_ne F f c (pushUnique m) he]
      have hcc : (c ∈ f :: rest) ↔ c ∈ rest := by
        rw [List.mem_cons]
        exact ⟨fun h => h.resolve_left (fun h2 => he h2.symm), Or.inr⟩
      by_cases hr : c ∈ rest ∧ m ∉ F.getD c []
      · rw [if_pos hr, if_pos ⟨hcc.mpr hr.1, hr.2⟩]
      · rw [if_neg hr, if_neg (fun h => hr ⟨hcc.mp h.1, h.2⟩)]

theorem getD_fold_gates (N : Network) :
    ∀ (gl : List Nat) (F : List (List Nat)) (c : Nat), gl.Nodup →
      (∀ m ∈ gl, ∀ c0, c0 < F.length → m ∉ F.getD c0 []) → c < F.length →
      (gl.foldl (fun F m => foldUpd (pushUnique m) F (gateFanins N m)) F).getD c [] =
        F.getD c [] ++ gl.filter (fun m => decide (c ∈ gateFanins N m)) := by
  intro gl
  induction gl with
  | nil =>
    intro F c _ _ _
    simp
  | cons m rest ih =>
    intro F c hnd hfresh hlt
    simp only [List.foldl_cons]
    set F1 := foldUpd (pushUnique m) F (gateFanins N m) with hF1
    have hlen1 : F1.length = F.length := length_foldUpd _ _ _
    have hchar : ∀ c0, c0 < F.length →
        F1.getD c0 [] =
          if c0 ∈ gateFanins N m then F.getD c0 [] ++ [m] else F.getD c0 [] := by
      intro c0 h0
      rw [hF1, getD_fold_push m (gateFanins N m) F c0 h0]
      have hm : m ∉ F.getD c0 [] := hfresh m (List.mem_cons_self m rest) c0 h0
      by_cases hin : c0 ∈ gateFanins N m
      · rw [if_pos ⟨hin, hm⟩, if_pos hin]
      · rw [if_neg (fun h => hin h.1), if_neg hin]
    have hfresh1 : ∀ m0 ∈ rest, ∀ c0, c0 < F1.length → m0 ∉ F1.getD c0 [] := by
      intro m0 hm0 c0 h0
      rw [hlen1] at h0
      rw [hchar c0 h0]
      have hne : m0 ≠ m := by
        intro h
        exact (List.nodup_cons.mp hnd).1 (h ▸ hm0)
      have hnotF : m0 ∉ F.getD c0 [] := hfresh m0 (List.mem_cons_of_mem _ hm0) c0 h0
      by_cases hin : c0 ∈ gateFanins N m
      · rw [if_pos hin]
        intro h
        rcases List.mem_append.mp h with h | h
        · exact hnotF h
        · exact hne (List.mem_singleton.mp h)
      · rw [if_neg hin]; exact hnotF
    rw [ih F1 c (List.nodup_cons.mp hnd).2 hfresh1 (by rw [hlen1]; exact hlt)]
    rw [hchar c hlt]
    by_cases hin : c ∈ gateFanins N m
    · rw [if_pos hin, List.filter_cons_of_pos (by simpa using hin)]
      simp
    · rw [if_neg hin, List.filter_cons_of_neg (by simpa using hin)]

theorem nodup_gates (N : Network) : (gates N).Nodup :=
  List.Nodup.filter _ (List.nodup_range _)

theorem mem_gates (N : Network) (m : Nat) :
    m ∈ gates N ↔ m < N.size ∧ isGate N m = true := by
  unfold gates
  rw [List.mem_filter, List.mem_range]

theorem compute_fanout_getD (N : Network) (c : Nat) (h : c < N.size) :
    (compute_fanout N).getD c [] =
      (gates N).filter (fun m => decide (c ∈ gateFanins N m)) := by
  unfold compute_fanout
  have hrep : ∀ c0, c0 < (List.replicate N.size ([] : List Nat)).length →
      (List.replicate N.size ([] : List Nat)).getD c0 [] = [] := by
    intro c0 _
    exact getD_replicate_nil N.size c0
  have hlen : (List.replicate N.size ([] : List Nat)).length = N.size :=
    List.length_replicate _ _
  have := getD_fold_gates N (gates N) (List.replicate N.size []) c
    (nodup_gates N)
    (fun m _ c0 h0 => by rw [hrep c0 h0]; exact List.not_mem_nil m)
    (by rw [hlen]; exact h)
  rw [this, getD_replicate_nil, List.nil_append]

theorem length_fold_gates (N : Network) :
    ∀ (gl : List Nat) (F : List (List Nat)),
      (gl.foldl (fun F m => foldUpd (pushUnique m) F (gateFanins N m)) F).length =
        F.length := by
  intro gl
  induction gl with
  | nil => intro F; rfl
  | cons m rest ih =>
    intro F
    simp only [List.foldl_cons]
    rw [ih, length_foldUpd]

theorem length_compute_fanout (N : Network) :
    (compute_fanout N).length = N.size := by
  unfold compute_fanout
  rw [show ((gates N).foldl (fun F m => foldUpd (pushUnique m) F (gateFanins N m))
      (List.replicate N.size [])) =
      (gates N).foldl (fun F m => foldUpd (pushUnique m) F (gateFanins N m))
      (List.replicate N.size []) from rfl]
  rw [length_fold_gates N (gates N) (List.replicate N.size [])]
  exact List.length_replicate _ _

theorem le_foldr_max : ∀ (l : List Nat) (a : Nat), a ∈ l →
    a ≤ l.foldr Nat.max 0 := by
  intro l
  induction l with
  | nil => intro a ha; simp at ha
  | cons x t ih =>
    intro a ha
    rw [List.foldr_cons]
    rcases List.mem_cons.mp ha with h | h
    · subst h; exact Nat.le_max_left _ _
    · exact Nat.le_trans (ih a h) (Nat.le_max_right _ _)

theorem isEmpty_getD_of_size_le (N : Network) (n : Nat) (h : N.size ≤ n) :
    (N.fanins.getD n []).isEmpty = true := by
  rw [getD_of_len_le ([] : List Signal) N.fanins n h]
  rfl

theorem levelAux_stab (N : Network) (cost : Nat → Nat) (hT : Topo N) :
    ∀ n f1 f2, n < f1 → n < f2 →
      levelAux N cost f1 n = levelAux N cost f2 n := by
  intro n
  induction n using Nat.strong_induction_on with
  | _ n ih =>
    intro f1 f2 h1 h2
    match f1, f2 with
    | a + 1, b + 1 =>
      show levelAux N cost (a + 1) n = levelAux N cost (b + 1) n
      simp only [levelAux]
      by_cases he : (N.fanins.getD n []).isEmpty
      · rw [if_pos he, if_pos he]
      · rw [if_neg he, if_neg he]
        congr 2
        apply List.map_congr_left
        intro t ht
        have hn : n < N.size := by
          by_contra hc
          exact he (isEmpty_getD_of_size_le N n (Nat.le_of_not_lt hc))
        have htn : t.node < n := hT n hn t ht
        exact ih t.node htn a b
          (Nat.lt_of_lt_of_le htn (Nat.lt_succ_iff.mp h1))
          (Nat.lt_of_lt_of_le htn (Nat.lt_succ_iff.mp h2))

theorem dvLevelC_pi (N : Network) (cost : Nat → Nat) (n : Nat)
    (h : (N.fanins.getD n []).isEmpty = true) : dvLevelC N cost n = 0 := by
  unfold dvLevelC
  show levelAux N cost (n + 1) n = 0
  simp only [levelAux]
  rw [if_pos h]

theorem dvLevelC_gate (N : Network) (cost : Nat → Nat) (n : Nat)
    (hT : Topo N) (h : (N.fanins.getD n []).isEmpty = false) :
    dvLevelC N cost n =
      ((N.fanins.getD n []).map (fun t => dvLevelC N cost t.node)).foldr
        Nat.max 0 + cost n := by
  unfold dvLevelC
  show levelAux N cost (n + 1) n = _
  simp only [levelAux]
  rw [if_neg (by rw [h]; exact Bool.false_ne_true)]
  congr 2
  apply List.map_congr_left
  intro t ht
  have hn : n < N.size := by
    by_contra hc
    rw [isEmpty_getD_of_size_le N n (Nat.le_of_not_lt hc)] at h
    exact Bool.noConfusion h
  have htn : t.node < n := hT n hn t ht
  exact levelAux_stab N cost hT t.node n (t.node + 1) htn (Nat.lt_succ_self _)

theorem dvLevelC_fanin_le (N : Network) (cost : Nat → Nat) (n : Nat)
    (hT : Topo N) (t : Signal) (ht : t ∈ N.fanins.getD n []) :
    dvLevelC N cost t.node + cost n ≤ dvLevelC N cost n := by
  have hne : (N.fanins.getD n []).isEmpty = false := by
    cases hem : (N.fanins.getD n []).isEmpty
    · rfl
    · rw [List.isEmpty_iff] at hem
      rw [hem] at ht
      simp at ht
  rw [dvLevelC_gate N cost n hT hne]
  have : dvLevelC N cost t.node ≤
      ((N.fanins.getD n []).map (fun t => dvLevelC N cost t.node)).foldr
        Nat.max 0 :=
    le_foldr_max _ _ (List.mem_map.mpr ⟨t, ht, rfl⟩)
  omega

theorem usub_exact (a b : Nat) (hb : b ≤ a) (ha : a < U32) :
    usub a b = a - b := by
  unfold usub U32 at *
  have h1 : a % 4294967296 = a := Nat.mod_eq_of_lt ha
  have h2 : b % 4294967296 = b := Nat.mod_eq_of_lt (Nat.lt_of_le_of_lt hb ha)
  rw [h1, h2]
  omega

theorem uadd_exact (a b : Nat) (h : a + b < U32) : uadd a b = a + b := by
  unfold uadd U32 at *
  omega

theorem num_splitter_levels_le_two (C : Nat) (F : List (List Nat)) (n : Nat) :
    num_splitter_levels C F n ≤ 2 := by
  unfold num_splitter_levels
  split
  · omega
  · split <;> omega

theorem foldl_uadd_eq_sum :
    ∀ (l : List Nat) (acc : Nat), acc + l.sum < U32 →
      l.foldl uadd acc = acc + l.sum := by
  intro l
  induction l with
  | nil => intro acc _; simp
  | cons x t ih =>
    intro acc h
    rw [List.sum_cons] at h
    rw [List.foldl_cons, uadd_exact acc x (by omega), ih (acc + x) (by omega),
      List.sum_cons]
    omega

theorem isGate_iff_isEmpty (N : Network) (m : Nat) :
    isGate N m = true ↔ (N.fanins.getD m []).isEmpty = false := by
  unfold isGate
  cases (N.fanins.getD m []).isEmpty <;> simp

theorem mem_compute_fanout (N : Network) (c m : Nat) (h : c < N.size) :
    m ∈ (compute_fanout N).getD c [] ↔
      m < N.size ∧ isGate N m = true ∧ c ∈ gateFanins N m := by
  rw [compute_fanout_getD N c h, List.mem_filter, mem_gates]
  simp [and_assoc]

theorem size_lt_of_isEmpty_false (N : Network) (n : Nat)
    (h : (N.fanins.getD n []).isEmpty = false) : n < N.size := by
  by_contra hc
  rw [isEmpty_getD_of_size_le N n (Nat.le_of_not_lt hc)] at h
  exact Bool.noConfusion h

theorem dvLevel_gate_ge (N : Network) (C : Nat) (F : List (List Nat))
    (n : Nat) (hT : Topo N) (hg : (N.fanins.getD n []).isEmpty = false) :
    num_splitter_levels C F n + 1 ≤ dvLevel N C F n := by
  unfold dvLevel
  rw [dvLevelC_gate N _ n hT hg]
  omega

theorem dv_edge (N : Network) (C : Nat) (n fo : Nat) (hn : n < N.size)
    (hT : Topo N) (hfo : fo ∈ (compute_fanout N).getD n []) :
    (N.fanins.getD fo []).isEmpty = false ∧ fo < N.size ∧
      dvLevel N C (compute_fanout N) n
        + num_splitter_levels C (compute_fanout N) fo + 1 ≤
        dvLevel N C (compute_fanout N) fo := by
  rcases (mem_compute_fanout N n fo hn).mp hfo with ⟨hlt, hgate, hin⟩
  have hne : (N.fanins.getD fo []).isEmpty = false :=
    (isGate_iff_isEmpty N fo).mp hgate
  refine ⟨hne, hlt, ?_⟩
  rcases List.mem_map.mp hin with ⟨t, ht, htn⟩
  have h1 := dvLevelC_fanin_le N
    (fun m => num_splitter_levels C (compute_fanout N) m + 1) fo hT t ht
  have h2 : dvLevelC N (fun m => num_splitter_levels C (compute_fanout N) m + 1)
        t.node + (num_splitter_levels C (compute_fanout N) fo + 1) ≤
      dvLevelC N (fun m => num_splitter_levels C (compute_fanout N) m + 1) fo :=
    h1
  unfold dvLevel
  rw [htn] at h2
  omega

theorem edge_level_lemma (N : Network) (C : Nat) (n fo : Nat) (hT : Topo N)
    (hg : (N.fanins.getD n []).isEmpty = false)
    (hfo : fo ∈ (compute_fanout N).getD n [])
    (hsm : dvLevel N C (compute_fanout N) fo < U32) :
    level N C (compute_fanout N) n + num_splitter_levels C (compute_fanout N) n
        < level N C (compute_fanout N) fo ∧
    level N C (compute_fanout N) n + num_splitter_levels C (compute_fanout N) n
        = dvLevel N C (compute_fanout N) n ∧
    level N C (compute_fanout N) fo =
        dvLevel N C (compute_fanout N) fo
          - num_splitter_levels C (compute_fanout N) fo ∧
    dvLevel N C (compute_fanout N) n + 1 ≤ level N C (compute_fanout N) fo := by
  have hn : n < N.size := size_lt_of_isEmpty_false N n hg
  rcases dv_edge N C n fo hn hT hfo with ⟨hgfo, hlt, hedge⟩
  have hsn : num_splitter_levels C (compute_fanout N) n + 1 ≤
      dvLevel N C (compute_fanout N) n := dvLevel_gate_ge N C _ n hT hg
  have hdn : dvLevel N C (compute_fanout N) n < U32 := by omega
  have hlev_n : level N C (compute_fanout N) n =
      dvLevel N C (compute_fanout N) n
        - num_splitter_levels C (compute_fanout N) n :=
    usub_exact _ _ (by omega) hdn
  have hlev_fo : level N C (compute_fanout N) fo =
      dvLevel N C (compute_fanout N) fo
        - num_splitter_levels C (compute_fanout N) fo :=
    usub_exact _ _ (by omega) hsm
  refine ⟨by omega, by omega, hlev_fo, by omega⟩

/-- C2: immediately after `update_fanout()` the fan-out table is exact —
for every node `n` (index `c` below) the list `F[n]` is precisely the list
of gates having `n` as a direct fan-in, in gate enumeration (discovery)
order, each such gate appearing exactly once even when it uses `n` on more
than one fan-in port. -/
theorem C2_fanout_exact_after_update (N : Network) (c : Nat)
    (h : c < N.size) :
    (compute_fanout N).getD c [] =
      (gates N).filter (fun m => decide (c ∈ gateFanins N m)) ∧
    (∀ m, m ∈ (compute_fanout N).getD c [] ↔
      m < N.size ∧ isGate N m = true ∧ c ∈ gateFanins N m) ∧
    ((compute_fanout N).getD c []).Nodup := by
  refine ⟨compute_fanout_getD N c h, fun m => mem_compute_fanout N c m h, ?_⟩
  rw [compute_fanout_getD N c h]
  exact List.Nodup.filter _ (nodup_gates N)

/-- Witness for C2 at a concrete network (node 2 of `netSplit` uses node 1
once; nodes 2 and 3 both consume node 1). -/
theorem C2_witness :
    1 < netSplit.size ∧
    ((compute_fanout netSplit).getD 1 [] =
      (gates netSplit).filter (fun m => decide (1 ∈ gateFanins netSplit m)) ∧
    (∀ m, m ∈ (compute_fanout netSplit).getD 1 [] ↔
      m < netSplit.size ∧ isGate netSplit m = true ∧ 1 ∈ gateFanins netSplit m) ∧
    ((compute_fanout netSplit).getD 1 []).Nodup) :=
  ⟨by decide, C2_fanout_exact_after_update netSplit 1 (by decide)⟩

/-- C4 (amended): for positive capacity `C`, the buffering-stage and
buffering-cell counts follow the claimed piecewise formulas; the boundary
case `k = C` yields `stages = 1, cells = 1` when `2 ≤ C` (for `C = 1` the
fan-out count `k = C = 1` falls into the `k ≤ 1` bin and both counts are
0), and `k = C + 1` yields `stages = 2, cells = C + 1`. -/
theorem C4_splitter_formulas (C : Nat) (F : List (List Nat)) (n : Nat)
    (hC : 1 ≤ C) (hC2 : C + 1 < U32) :
    (num_splitter_levels C F n =
      if (F.getD n []).length ≤ 1 then 0
      else if (F.getD n []).length ≤ C then 1 else 2) ∧
    (num_splitters C F n =
      if (F.getD n []).length ≤ 1 then 0
      else if (F.getD n []).length ≤ C then 1 else C + 1) ∧
    ((F.getD n []).length ≤ 1 →
      num_splitter_levels C F n = 0 ∧ num_splitters C F n = 0) ∧
    (2 ≤ C → (F.getD n []).length = C →
      num_splitter_levels C F n = 1 ∧ num_splitters C F n = 1) ∧
    ((F.getD n []).length = C + 1 →
      num_splitter_levels C F n = 2 ∧ num_splitters C F n = C + 1) := by
  have hmod : (C + 1) % U32 = C + 1 := Nat.mod_eq_of_lt hC2
  unfold num_splitter_levels num_splitters
  rw [hmod]
  refine ⟨?_, ?_, ?_, ?_, ?_⟩ <;> (intros; split_ifs <;> omega)

/-- Witness for C4 at `C = 4` and a table with a fan-out list of length
four. -/
theorem C4_witness :
    1 ≤ 4 ∧ 4 + 1 < U32 ∧
    ((num_splitter_levels 4 [[5, 6, 7, 8]] 0 =
      if (([[5, 6, 7, 8]] : List (List Nat)).getD 0 []).length ≤ 1 then 0
      else if (([[5, 6, 7, 8]] : List (List Nat)).getD 0 []).length ≤ 4 then 1 else 2) ∧
    (num_splitters 4 [[5, 6, 7, 8]] 0 =
      if (([[5, 6, 7, 8]] : List (List Nat)).getD 0 []).length ≤ 1 then 0
      else if (([[5, 6, 7, 8]] : List (List Nat)).getD 0 []).length ≤ 4 then 1 else 4 + 1) ∧
    ((([[5, 6, 7, 8]] : List (List Nat)).getD 0 []).length ≤ 1 →
      num_splitter_levels 4 [[5, 6, 7, 8]] 0 = 0 ∧ num_splitters 4 [[5, 6, 7, 8]] 0 = 0) ∧
    (2 ≤ 4 → (([[5, 6, 7, 8]] : List (List Nat)).getD 0 []).length = 4 →
      num_splitter_levels 4 [[5, 6, 7, 8]] 0 = 1 ∧ num_splitters 4 [[5, 6, 7, 8]] 0 = 1) ∧
    ((([[5, 6, 7, 8]] : List (List Nat)).getD 0 []).length = 4 + 1 →
      num_splitter_levels 4 [[5, 6, 7, 8]] 0 = 2 ∧ num_splitters 4 [[5, 6, 7, 8]] 0 = 4 + 1)) :=
  ⟨by decide, by decide, C4_splitter_formulas 4 [[5, 6, 7, 8]] 0 (by decide) (by decide)⟩

/-- Counterexample to C4 as stated: with capacity `C = 1` (a positive
configuration value) the node `0` of `netChain1` has fan-out count
`k = 1 = C`, but `stages` and `cells` are 0, not 1 as the claim's `k = C`
boundary case asserts. -/
theorem C4_counterexample :
    ((compute_fanout netChain1).getD 0 []).length = 1 ∧
    num_splitter_levels 1 (compute_fanout netChain1) 0 ≠ 1 ∧
    num_splitters 1 (compute_fanout netChain1) 0 ≠ 1 := by
  decide

/-- C6: immediately after `update_fanout()`, for a gate `n` and any
consumer `fo` recorded in `F[n]`, the consumer's level strictly exceeds
the level at which `n`'s buffering tree terminates, so the per-edge buffer
term is non-negative and the assertion in `num_buffers(n)` cannot fire. -/
theorem C6_no_assert (N : Network) (C : Nat) (n fo : Nat) (hT : Topo N)
    (hg : (N.fanins.getD n []).isEmpty = false)
    (hfo : fo ∈ (compute_fanout N).getD n [])
    (hsm : dvLevel N C (compute_fanout N) fo < U32) :
    level N C (compute_fanout N) n + num_splitter_levels C (compute_fanout N) n
      < level N C (compute_fanout N) fo :=
  (edge_level_lemma N C n fo hT hg hfo hsm).1

/-- Witness for C6: gate 1 of `netChain2` with its consumer 2. -/
theorem C6_witness :
    Topo netChain2 ∧
    level netChain2 4 (compute_fanout netChain2) 1
        + num_splitter_levels 4 (compute_fanout netChain2) 1
      < level netChain2 4 (compute_fanout netChain2) 2 :=
  ⟨by decide,
   C6_no_assert netChain2 4 1 2 (by decide) (by decide) (by decide) (by decide)⟩

/-- C9: a primary input `p` with more than one fan-out has
`num_splitter_levels p ≥ 1` while the level engine stores level 0 for it,
so the `uint32_t` subtraction in `level(p)` wraps and returns
`2^32 - stages(p)`, which is not 0. -/
theorem C9_pi_level_wraps (N : Network) (C : Nat) (p : Nat)
    (hpi : (N.fanins.getD p []).isEmpty = true)
    (hk : 1 < ((compute_fanout N).getD p []).length) :
    1 ≤ num_splitter_levels C (compute_fanout N) p ∧
    level N C (compute_fanout N) p =
      U32 - num_splitter_levels C (compute_fanout N) p ∧
    level N C (compute_fanout N) p ≠ 0 := by
  have hdv : dvLevel N C (compute_fanout N) p = 0 := dvLevelC_pi N _ p hpi
  have hs2 := num_splitter_levels_le_two C (compute_fanout N) p
  have hs1 : 1 ≤ num_splitter_levels C (compute_fanout N) p := by
    unfold num_splitter_levels
    split_ifs <;> omega
  refine ⟨hs1, ?_, ?_⟩ <;>
  · unfold level
    rw [hdv]
    generalize num_splitter_levels C (compute_fanout N) p = s at hs1 hs2 ⊢
    unfold usub U32
    omega

/-- Witness for C9: the primary input 0 of `netPiFan` drives nodes 1 and
2, so its reported level is `2^32 - 1`. -/
theorem C9_witness :
    (netPiFan.fanins.getD 0 []).isEmpty = true ∧
    1 < ((compute_fanout netPiFan).getD 0 []).length ∧
    (1 ≤ num_splitter_levels 4 (compute_fanout netPiFan) 0 ∧
     level netPiFan 4 (compute_fanout netPiFan) 0 =
       U32 - num_splitter_levels 4 (compute_fanout netPiFan) 0 ∧
     level netPiFan 4 (compute_fanout netPiFan) 0 ≠ 0) :=
  ⟨by decide, by decide, C9_pi_level_wraps netPiFan 4 0 (by decide) (by decide)⟩

/-- C10: every recorded fan-out is a gate; primary-output references are
never recorded (the fan-out table does not depend on the output list); and
a node whose only consumers are primary outputs has an empty fan-out list,
hence zero splitter levels, zero splitters and zero buffers. -/
theorem C10_fanout_gates_only (N : Network) (C : Nat) (c : Nat)
    (hc : c < N.size)
    (hno : ∀ m, m < N.size → isGate N m = true → c ∉ gateFanins N m) :
    (∀ c0, c0 < N.size → ∀ m ∈ (compute_fanout N).getD c0 [],
      isGate N m = true) ∧
    (∀ (fi : List (List Signal)) (os os' : List Signal),
      compute_fanout ⟨fi, os⟩ = compute_fanout ⟨fi, os'⟩) ∧
    (compute_fanout N).getD c [] = [] ∧
    num_splitter_levels C (compute_fanout N) c = 0 ∧
    num_splitters C (compute_fanout N) c = 0 ∧
    num_buffers_node N C (compute_fanout N) c = 0 := by
  have h3 : (compute_fanout N).getD c [] = [] := by
    rw [compute_fanout_getD N c hc]
    apply List.filter_eq_nil_iff.mpr
    intro m hm
    rcases (mem_gates N m).mp hm with ⟨hlt, hg⟩
    simpa using hno m hlt hg
  have h5 : num_splitters C (compute_fanout N) c = 0 := by
    unfold num_splitters
    rw [h3]
    simp
  refine ⟨fun c0 h0 m hm => ((mem_compute_fanout N c0 m h0).mp hm).2.1,
    fun fi os os' => rfl, h3, ?_, h5, ?_⟩
  · unfold num_splitter_levels
    rw [h3]
    simp
  · simp only [num_buffers_node]
    rw [h3, h5]
    rfl

/-- Witness for C10: node 1 of `netPoOnly` drives two primary outputs and
no gate. -/
theorem C10_witness :
    1 < netPoOnly.size ∧
    ((∀ c0, c0 < netPoOnly.size → ∀ m ∈ (compute_fanout netPoOnly).getD c0 [],
      isGate netPoOnly m = true) ∧
    (∀ (fi : List (List Signal)) (os os' : List Signal),
      compute_fanout ⟨fi, os⟩ = compute_fanout ⟨fi, os'⟩) ∧
    (compute_fanout netPoOnly).getD 1 [] = [] ∧
    num_splitter_levels 4 (compute_fanout netPoOnly) 1 = 0 ∧
    num_splitters 4 (compute_fanout netPoOnly) 1 = 0 ∧
    num_buffers_node netPoOnly 4 (compute_fanout netPoOnly) 1 = 0) :=
  ⟨by decide, C10_fanout_gates_only netPoOnly 4 1 (by decide) (by decide)⟩

/-- C8 (amended): construction is rejected exactly when the substrate
already provides depth/level capabilities (or lacks the required
enumeration methods); the parameter record — in particular
`max_splitter_levels` — is never inspected, so the outcome is the same for
any two parameter records. -/
theorem C8_construction_checks (t : NtkTraits) (ps psb : AqfpParams)
    (N : Network) :
    (aqfp_construct t ps N = none ↔
      (t.has_depth || t.has_level || t.has_update_levels
        || !t.has_foreach_node || !t.has_foreach_fanin) = true) ∧
    aqfp_construct t ps N = aqfp_construct t psb N := by
  unfold aqfp_construct
  refine ⟨?_, rfl⟩
  split
  · simp_all
  · simp_all

/-- Counterexample to C8 as stated: a parameter record requesting three
buffering stages is accepted — construction proceeds and returns the
computed fan-out table. -/
theorem C8_counterexample :
    2 < paramsThreeStages.max_splitter_levels ∧
    aqfp_construct traitsOk paramsThreeStages netChain1 =
      some (compute_fanout netChain1) := by
  exact ⟨by decide, rfl⟩

/-- C3 (amended): after `update_fanout()`, the stored level table `L`
satisfies, for every gate `g`, `L(g) = max over fan-ins f of L(f) +
stages(g) + 1` — the node's own splitter stages, not the fan-in's, are
charged on top of the fan-in maximum; nodes without fan-ins (primary
inputs and constants) have `L = 0`; every edge satisfies
`L(g) ≥ L(f) + 1`, and in terms of the view's `level()` function,
`level(g) ≥ level(f) + stages(f) + 1` whenever the fan-in's subtraction
does not wrap; `depth()` is the maximum stored level over all nodes. -/
theorem C3_level_recurrence (N : Network) (C : Nat) (n : Nat) (hT : Topo N)
    (hg : (N.fanins.getD n []).isEmpty = false) :
    dvLevel N C (compute_fanout N) n =
      ((N.fanins.getD n []).map
        (fun t => dvLevel N C (compute_fanout N) t.node)).foldr Nat.max 0
      + num_splitter_levels C (compute_fanout N) n + 1 ∧
    (∀ m, (N.fanins.getD m []).isEmpty = true →
      dvLevel N C (compute_fanout N) m = 0) ∧
    (∀ t ∈ N.fanins.getD n [],
      dvLevel N C (compute_fanout N) t.node + 1 ≤
        dvLevel N C (compute_fanout N) n) ∧
    (∀ t ∈ N.fanins.getD n [],
      num_splitter_levels C (compute_fanout N) t.node ≤
          dvLevel N C (compute_fanout N) t.node →
        dvLevel N C (compute_fanout N) n < U32 →
        level N C (compute_fanout N) t.node
          + num_splitter_levels C (compute_fanout N) t.node + 1 ≤
          level N C (compute_fanout N) n) ∧
    depth N C (compute_fanout N) =
      ((List.range N.size).map (dvLevel N C (compute_fanout N))).foldr
        Nat.max 0 := by
  have hrec : dvLevel N C (compute_fanout N) n =
      ((N.fanins.getD n []).map
        (fun t => dvLevel N C (compute_fanout N) t.node)).foldr Nat.max 0
      + (num_splitter_levels C (compute_fanout N) n + 1) :=
    dvLevelC_gate N _ n hT hg
  refine ⟨by omega, fun m hm => dvLevelC_pi N _ m hm, ?_, ?_, rfl⟩
  · intro t ht
    have h1 : dvLevel N C (compute_fanout N) t.node
        + (num_splitter_levels C (compute_fanout N) n + 1) ≤
        dvLevel N C (compute_fanout N) n :=
      dvLevelC_fanin_le N _ n hT t ht
    omega
  · intro t ht hst hsm
    have h1 : dvLevel N C (compute_fanout N) t.node
        + (num_splitter_levels C (compute_fanout N) n + 1) ≤
        dvLevel N C (compute_fanout N) n :=
      dvLevelC_fanin_le N _ n hT t ht
    have hsn : num_splitter_levels C (compute_fanout N) n + 1 ≤
        dvLevel N C (compute_fanout N) n := dvLevel_gate_ge N C _ n hT hg
    have hlev_n : level N C (compute_fanout N) n =
        dvLevel N C (compute_fanout N) n
          - num_splitter_levels C (compute_fanout N) n :=
      usub_exact _ _ (by omega) hsm
    have hlev_t : level N C (compute_fanout N) t.node =
        dvLevel N C (compute_fanout N) t.node
          - num_splitter_levels C (compute_fanout N) t.node :=
      usub_exact _ _ hst (by omega)
    omega

/-- Witness for C3 at gate 2 of `netChain2`. -/
theorem C3_witness :
    Topo netChain2 ∧
    (dvLevel netChain2 4 (compute_fanout netChain2) 2 =
      ((netChain2.fanins.getD 2 []).map
        (fun t => dvLevel netChain2 4 (compute_fanout netChain2) t.node)).foldr
        Nat.max 0
      + num_splitter_levels 4 (compute_fanout netChain2) 2 + 1 ∧
    (∀ m, (netChain2.fanins.getD m []).isEmpty = true →
      dvLevel netChain2 4 (compute_fanout netChain2) m = 0) ∧
    (∀ t ∈ netChain2.fanins.getD 2 [],
      dvLevel netChain2 4 (compute_fanout netChain2) t.node + 1 ≤
        dvLevel netChain2 4 (compute_fanout netChain2) 2) ∧
    (∀ t ∈ netChain2.fanins.getD 2 [],
      num_splitter_levels 4 (compute_fanout netChain2) t.node ≤
          dvLevel netChain2 4 (compute_fanout netChain2) t.node →
        dvLevel netChain2 4 (compute_fanout netChain2) 2 < U32 →
        level netChain2 4 (compute_fanout netChain2) t.node
          + num_splitter_levels 4 (compute_fanout netChain2) t.node + 1 ≤
          level netChain2 4 (compute_fanout netChain2) 2) ∧
    depth netChain2 4 (compute_fanout netChain2) =
      ((List.range netChain2.size).map
        (dvLevel netChain2 4 (compute_fanout netChain2))).foldr Nat.max 0) :=
  ⟨by decide, C3_level_recurrence netChain2 4 2 (by decide) (by decide)⟩

/-- Counterexample to C3 as stated: in `netSplit`, gate 2 has the single
fan-in 1 whose splitter stage count is 1; the stored level of gate 2 is 3,
but the claimed recurrence `1 + max over fan-ins (L(f) + stages(f))`
evaluates to 4. -/
theorem C3_counterexample :
    isGate netSplit 2 = true ∧
    gateFanins netSplit 2 = [1] ∧
    dvLevel netSplit 4 (compute_fanout netSplit) 2 = 3 ∧
    1 + (dvLevel netSplit 4 (compute_fanout netSplit) 1
      + num_splitter_levels 4 (compute_fanout netSplit) 1) = 4 := by
  decide

/-- C5 (amended): immediately after `update_fanout()`, for every gate `n`
the code's `num_buffers(n)` equals the specification formula — the exact
sum over consumers of `level(fo) - (level(n) + stages(n)) - 1` plus
`cells(n)` — and circuit-wide `num_buffers()` is the sum of
`num_buffers(n)` over every gate (smallness hypotheses keep the `uint32_t`
accumulations exact). -/
theorem C5_buffer_sum (N : Network) (C : Nat) (n : Nat) (hT : Topo N)
    (hg : (N.fanins.getD n []).isEmpty = false)
    (hsm : ∀ fo ∈ (compute_fanout N).getD n [],
      dvLevel N C (compute_fanout N) fo < U32)
    (hb : spec_node_buffers N C (compute_fanout N) n < U32)
    (hbt : ((gates N).map (num_buffers_node N C (compute_fanout N))).sum
      < U32) :
    num_buffers_node N C (compute_fanout N) n =
      spec_node_buffers N C (compute_fanout N) n ∧
    num_buffers N C (compute_fanout N) =
      ((gates N).map (num_buffers_node N C (compute_fanout N))).sum := by
  constructor
  · by_cases hFn : (compute_fanout N).getD n [] = []
    · have h5 : num_splitters C (compute_fanout N) n = 0 := by
        unfold num_splitters
        rw [hFn]
        simp
      simp only [num_buffers_node, spec_node_buffers]
      rw [hFn, h5]
      rfl
    · rcases List.exists_mem_of_ne_nil _ hFn with ⟨fo0, hfo0⟩
      have hn : n < N.size := size_lt_of_isEmpty_false N n hg
      have hdvn : dvLevel N C (compute_fanout N) n < U32 := by
        have := (dv_edge N C n fo0 hn hT hfo0).2.2
        have := hsm fo0 hfo0
        omega
      have hsn : num_splitter_levels C (compute_fanout N) n + 1 ≤
          dvLevel N C (compute_fanout N) n := dvLevel_gate_ge N C _ n hT hg
      have hvln : level N C (compute_fanout N) n =
          dvLevel N C (compute_fanout N) n
            - num_splitter_levels C (compute_fanout N) n :=
        usub_exact _ _ (by omega) hdvn
      have hnlevel : uadd (level N C (compute_fanout N) n)
            (num_splitter_levels C (compute_fanout N) n) =
          dvLevel N C (compute_fanout N) n := by
        rw [hvln, uadd_exact _ _ (by omega)]
        omega
      have hterm : ∀ fo ∈ (compute_fanout N).getD n [],
          usub (usub (level N C (compute_fanout N) fo)
              (uadd (level N C (compute_fanout N) n)
                (num_splitter_levels C (compute_fanout N) n))) 1 =
            level N C (compute_fanout N) fo
              - (level N C (compute_fanout N) n
                + num_splitter_levels C (compute_fanout N) n) - 1 := by
        intro fo hfo
        rcases edge_level_lemma N C n fo hT hg hfo (hsm fo hfo) with
          ⟨hlt, heq, hfoeq, hle⟩
        have hvlfo : level N C (compute_fanout N) fo < U32 := by
          have := hsm fo hfo
          omega
        rw [hnlevel]
        rw [usub_exact _ _ (by omega) hvlfo]
        rw [usub_exact _ _ (by omega) (by omega)]
        omega
      simp only [num_buffers_node, spec_node_buffers]
      rw [← List.foldl_map
        (fun fo => usub (usub (level N C (compute_fanout N) fo)
          (uadd (level N C (compute_fanout N) n)
            (num_splitter_levels C (compute_fanout N) n))) 1) uadd]
      rw [List.map_congr_left hterm]
      have hbnd : (((compute_fanout N).getD n []).map
          (fun fo => level N C (compute_fanout N) fo
            - (level N C (compute_fanout N) n
              + num_splitter_levels C (compute_fanout N) n) - 1)).sum
          + num_splitters C (compute_fanout N) n < U32 := hb
      rw [foldl_uadd_eq_sum _ 0 (by omega)]
      rw [uadd_exact _ _ (by omega)]
      omega
  · unfold num_buffers
    rw [← List.foldl_map (num_buffers_node N C (compute_fanout N)) uadd]
    rw [foldl_uadd_eq_sum _ 0 (by omega)]
    omega

/-- Witness for C5 at gate 1 of `netChain2`. -/
theorem C5_witness :
    Topo netChain2 ∧
    (num_buffers_node netChain2 4 (compute_fanout netChain2) 1 =
      spec_node_buffers netChain2 4 (compute_fanout netChain2) 1 ∧
    num_buffers netChain2 4 (compute_fanout netChain2) =
      ((gates netChain2).map
        (num_buffers_node netChain2 4 (compute_fanout netChain2))).sum) :=
  ⟨by decide,
   C5_buffer_sum netChain2 4 1 (by decide) (by decide) (by decide) (by decide)
     (by decide)⟩

/-- Counterexample to C5 as stated (for every node): node 0 of `netPiFan`
is a primary input with two consumers; its `level` wraps, the code's
`nlevel` wraps back to the stored level 0, and `num_buffers(0) = 2`, while
the claimed per-node sum evaluates to 1. -/
theorem C5_counterexample :
    (netPiFan.fanins.getD 0 []).isEmpty = true ∧
    num_buffers_node netPiFan 4 (compute_fanout netPiFan) 0 = 2 ∧
    spec_node_buffers netPiFan 4 (compute_fanout netPiFan) 0 = 1 := by
  decide

theorem length_on_add (F : List (List Nat)) (n : Nat) (fins : List Nat) :
    (on_add_hook F n fins).length = F.length :=
  length_foldUpd _ _ _

theorem length_on_modified (F : List (List Nat)) (n : Nat)
    (prev cur : List Nat) :
    (on_modified_hook F n prev cur).length = F.length := by
  unfold on_modified_hook
  rw [length_foldUpd, length_foldUpd]

theorem length_on_delete (F : List (List Nat)) (n : Nat) (fins : List Nat) :
    (on_delete_hook F n fins).length = F.length := by
  unfold on_delete_hook
  rw [length_foldUpd, length_updF]

theorem getD_on_add (F : List (List Nat)) (n : Nat) (fins : List Nat)
    (hnd : fins.Nodup) (c : Nat) (hc : c < F.length) :
    (on_add_hook F n fins).getD c [] =
      if c ∈ fins then F.getD c [] ++ [n] else F.getD c [] := by
  unfold on_add_hook
  by_cases hcf : c ∈ fins
  · rw [if_pos hcf]
    exact getD_foldUpd_nodup_mem _ fins F c hnd hcf hc
  · rw [if_neg hcf]
    exact getD_foldUpd_not_mem _ fins F c hcf

theorem getD_on_modified (F : List (List Nat)) (n : Nat)
    (prev cur : List Nat) (hnd : cur.Nodup) (c : Nat) (hc : c < F.length) :
    (on_modified_hook F n prev cur).getD c [] =
      if c ∈ cur then
        (if c ∈ prev then eraseAll n (F.getD c []) else F.getD c []) ++ [n]
      else
        (if c ∈ prev then eraseAll n (F.getD c []) else F.getD c []) := by
  unfold on_modified_hook
  have hlen1 : (foldUpd (eraseAll n) F prev).length = F.length :=
    length_foldUpd _ _ _
  have h1 : (foldUpd (eraseAll n) F prev).getD c [] =
      if c ∈ prev then eraseAll n (F.getD c []) else F.getD c [] := by
    by_cases hcp : c ∈ prev
    · rw [if_pos hcp]
      exact getD_foldUpd_idem (eraseAll n) (eraseAll_idem n) prev F c hcp hc
    · rw [if_neg hcp]
      exact getD_foldUpd_not_mem _ prev F c hcp
  by_cases hcc : c ∈ cur
  · rw [if_pos hcc,
      getD_foldUpd_nodup_mem _ cur _ c hnd hcc (by rw [hlen1]; exact hc), h1]
  · rw [if_neg hcc, getD_foldUpd_not_mem _ cur _ c hcc, h1]

theorem getD_on_delete (F : List (List Nat)) (n : Nat) (fins : List Nat)
    (hnf : n ∉ fins) (hn : n < F.length) (c : Nat) (hc : c < F.length) :
    (on_delete_hook F n fins).getD c [] =
      if c = n then []
      else if c ∈ fins then eraseAll n (F.getD c []) else F.getD c [] := by
  unfold on_delete_hook
  have hlen1 : (updF F n (fun _ => [])).length = F.length := length_updF _ _ _
  by_cases hcn : c = n
  · subst hcn
    rw [if_pos rfl, getD_foldUpd_not_mem _ fins _ c hnf,
      getD_updF_self F c _ hn]
  · rw [if_neg hcn]
    have h1 : (updF F n (fun _ => [])).getD c [] = F.getD c [] :=
      getD_updF_ne F n c _ (fun h => hcn h.symm)
    by_cases hcf : c ∈ fins
    · rw [if_pos hcf,
        getD_foldUpd_idem (eraseAll n) (eraseAll_idem n) fins _ c hcf
          (by rw [hlen1]; exact hc), h1]
    · rw [if_neg hcf, getD_foldUpd_not_mem _ fins _ c hcf, h1]

theorem exact_add (sub F : List (List Nat)) (n : Nat) (fins : List Nat)
    (h : ExactF sub F) (hv : validMut sub (.addNode n fins)) :
    ExactF (applyMut sub (.addNode n fins))
      (applyHook F (.addNode n fins)) := by
  obtain ⟨hlen, hinv⟩ := h
  obtain ⟨hn, hfresh, hnin, hnd⟩ := hv
  show ExactF (sub.set n fins) (on_add_hook F n fins)
  refine ⟨by rw [length_on_add, List.length_set, hlen], ?_⟩
  intro c hc
  rw [length_on_add] at hc
  have hchar := getD_on_add F n fins hnd c hc
  have hnF : n ∉ F.getD c [] := by
    intro hmem
    have h2 := ((hinv c hc).2.1 n hmem).2
    rw [hfresh] at h2
    exact List.not_mem_nil c h2
  refine ⟨?_, ?_, ?_⟩
  · rw [hchar]
    by_cases hcf : c ∈ fins
    · rw [if_pos hcf]
      exact nodup_append_single _ _ (hinv c hc).1 hnF
    · rw [if_neg hcf]
      exact (hinv c hc).1
  · intro m hm
    rw [hchar] at hm
    have hold : m ∈ F.getD c [] →
        m < (on_add_hook F n fins).length ∧ c ∈ (sub.set n fins).getD m [] := by
      intro h1
      rcases (hinv c hc).2.1 m h1 with ⟨hm1, hm2⟩
      have hmn : m ≠ n := by
        intro he
        rw [he, hfresh] at hm2
        exact List.not_mem_nil c hm2
      refine ⟨by rw [length_on_add]; exact hm1, ?_⟩
      rw [getD_set_ne fins [] sub n m (fun he => hmn he.symm)]
      exact hm2
    by_cases hcf : c ∈ fins
    · rw [if_pos hcf] at hm
      rcases List.mem_append.mp hm with h1 | h1
      · exact hold h1
      · have hmn : m = n := List.mem_singleton.mp h1
        subst hmn
        refine ⟨by rw [length_on_add, hlen]; exact hn, ?_⟩
        rw [getD_set_self fins [] sub m hn]
        exact hcf
    · rw [if_neg hcf] at hm
      exact hold hm
  · intro m hmlt hsub
    rw [length_on_add] at hmlt
    rw [hchar]
    by_cases hmn : m = n
    · subst hmn
      rw [getD_set_self fins [] sub m hn] at hsub
      rw [if_pos hsub]
      exact List.mem_append_right _ (List.mem_singleton.mpr rfl)
    · rw [getD_set_ne fins [] sub n m (fun he => hmn he.symm)] at hsub
      have hmF : m ∈ F.getD c [] := (hinv c hc).2.2 m hmlt hsub
      by_cases hcf : c ∈ fins
      · rw [if_pos hcf]
        exact List.mem_append_left _ hmF
      · rw [if_neg hcf]
        exact hmF

theorem exact_modify (sub F : List (List Nat)) (n : Nat)
    (prev cur : List Nat) (h : ExactF sub F)
    (hv : validMut sub (.modifyNode n prev cur)) :
    ExactF (applyMut sub (.modifyNode n prev cur))
      (applyHook F (.modifyNode n prev cur)) := by
  obtain ⟨hlen, hinv⟩ := h
  obtain ⟨hn, hprev, hncur, hnprev, hndcur⟩ := hv
  show ExactF (sub.set n cur) (on_modified_hook F n prev cur)
  refine ⟨by rw [length_on_modified, List.length_set, hlen], ?_⟩
  intro c hc
  rw [length_on_modified] at hc
  have hchar := getD_on_modified F n prev cur hndcur c hc
  have hAnodup : (if c ∈ prev then eraseAll n (F.getD c []) else F.getD c []).Nodup := by
    by_cases hcp : c ∈ prev
    · rw [if_pos hcp]
      exact nodup_eraseAll n _ (hinv c hc).1
    · rw [if_neg hcp]
      exact (hinv c hc).1
  have hnA : n ∉ (if c ∈ prev then eraseAll n (F.getD c []) else F.getD c []) := by
    by_cases hcp : c ∈ prev
    · rw [if_pos hcp]
      exact not_mem_eraseAll n _
    · rw [if_neg hcp]
      intro hmem
      have h2 := ((hinv c hc).2.1 n hmem).2
      rw [← hprev] at h2
      exact hcp h2
  have hmemA : ∀ m, m ≠ n →
      (m ∈ (if c ∈ prev then eraseAll n (F.getD c []) else F.getD c []) ↔
        m ∈ F.getD c []) := by
    intro m hmn
    by_cases hcp : c ∈ prev
    · rw [if_pos hcp, mem_eraseAll]
      exact ⟨fun h => h.1, fun h => ⟨h, hmn⟩⟩
    · rw [if_neg hcp]
  refine ⟨?_, ?_, ?_⟩
  · rw [hchar]
    by_cases hcc : c ∈ cur
    · rw [if_pos hcc]
      exact nodup_append_single _ _ hAnodup hnA
    · rw [if_neg hcc]
      exact hAnodup
  · intro m hm
    rw [hchar] at hm
    have hold : m ≠ n → m ∈ F.getD c [] →
        m < (on_modified_hook F n prev cur).length ∧
          c ∈ (sub.set n cur).getD m [] := by
      intro hmn h1
      rcases (hinv c hc).2.1 m h1 with ⟨hm1, hm2⟩
      refine ⟨by rw [length_on_modified]; exact hm1, ?_⟩
      rw [getD_set_ne cur [] sub n m (fun he => hmn he.symm)]
      exact hm2
    by_cases hcc : c ∈ cur
    · rw [if_pos hcc] at hm
      rcases List.mem_append.mp hm with h1 | h1
      · have hmn : m ≠ n := fun he => hnA (he ▸ h1)
        exact hold hmn ((hmemA m hmn).mp h1)
      · have hmn : m = n := List.mem_singleton.mp h1
        subst hmn
        refine ⟨by rw [length_on_modified, hlen]; exact hn, ?_⟩
        rw [getD_set_self cur [] sub m hn]
        exact hcc
    · rw [if_neg hcc] at hm
      have hmn : m ≠ n := fun he => hnA (he ▸ hm)
      exact hold hmn ((hmemA m hmn).mp hm)
  · intro m hmlt hsub
    rw [length_on_modified] at hmlt
    rw [hchar]
    by_cases hmn : m = n
    · subst hmn
      rw [getD_set_self cur [] sub m hn] at hsub
      rw [if_pos hsub]
      exact List.mem_append_right _ (List.mem_singleton.mpr rfl)
    · rw [getD_set_ne cur [] sub n m (fun he => hmn he.symm)] at hsub
      have hmF : m ∈ F.getD c [] := (hinv c hc).2.2 m hmlt hsub
      have hmA := (hmemA m hmn).mpr hmF
      by_cases hcc : c ∈ cur
      · rw [if_pos hcc]
        exact List.mem_append_left _ hmA
      · rw [if_neg hcc]
        exact hmA

theorem exact_delete (sub F : List (List Nat)) (n : Nat) (fins : List Nat)
    (h : ExactF sub F) (hv : validMut sub (.deleteNode n fins)) :
    ExactF (applyMut sub (.deleteNode n fins))
      (applyHook F (.deleteNode n fins)) := by
  obtain ⟨hlen, hinv⟩ := h
  obtain ⟨hn, hfins, hnf, hnoc⟩ := hv
  show ExactF (sub.set n []) (on_delete_hook F n fins)
  refine ⟨by rw [length_on_delete, List.length_set, hlen], ?_⟩
  intro c hc
  rw [length_on_delete] at hc
  have hchar := getD_on_delete F n fins hnf (hlen ▸ hn) c hc
  refine ⟨?_, ?_, ?_⟩
  · rw [hchar]
    by_cases hcn : c = n
    · rw [if_pos hcn]
      exact List.nodup_nil
    · rw [if_neg hcn]
      by_cases hcf : c ∈ fins
      · rw [if_pos hcf]
        exact nodup_eraseAll n _ (hinv c hc).1
      · rw [if_neg hcf]
        exact (hinv c hc).1
  · intro m hm
    rw [hchar] at hm
    by_cases hcn : c = n
    · rw [if_pos hcn] at hm
      exact absurd hm (List.not_mem_nil m)
    · rw [if_neg hcn] at hm
      have hmF : m ∈ F.getD c [] ∧ m ≠ n := by
        by_cases hcf : c ∈ fins
        · rw [if_pos hcf, mem_eraseAll] at hm
          exact hm
        · rw [if_neg hcf] at hm
          refine ⟨hm, ?_⟩
          intro he
          subst he
          have h2 := ((hinv c hc).2.1 m hm).2
          rw [← hfins] at h2
          exact hcf h2
      rcases (hinv c hc).2.1 m hmF.1 with ⟨hm1, hm2⟩
      refine ⟨by rw [length_on_delete]; exact hm1, ?_⟩
      rw [getD_set_ne [] [] sub n m (fun he => hmF.2 he.symm)]
      exact hm2
  · intro m hmlt hsub
    rw [length_on_delete] at hmlt
    rw [hchar]
    by_cases hmn : m = n
    · subst hmn
      rw [getD_set_self [] [] sub m hn] at hsub
      exact absurd hsub (List.not_mem_nil c)
    · rw [getD_set_ne [] [] sub n m (fun he => hmn he.symm)] at hsub
      have hmF : m ∈ F.getD c [] := (hinv c hc).2.2 m hmlt hsub
      by_cases hcn : c = n
      · subst hcn
        exact absurd hsub (hnoc m (hlen ▸ hmlt))
      · rw [if_neg hcn]
        by_cases hcf : c ∈ fins
        · rw [if_pos hcf, mem_eraseAll]
          exact ⟨hmF, hmn⟩
        · rw [if_neg hcf]
          exact hmF

theorem exact_step (sub F : List (List Nat)) (e : MutEvent)
    (h : ExactF sub F) (hv : validMut sub e) :
    ExactF (applyMut sub e) (applyHook F e) := by
  cases e with
  | addNode n fins => exact exact_add sub F n fins h hv
  | modifyNode n prev cur => exact exact_modify sub F n prev cur h hv
  | deleteNode n fins => exact exact_delete sub F n fins h hv

/-- C1 (amended): starting from a fan-out table exact for the substrate,
any sequence of mutations delivered through the enabled hooks keeps the
table exact after each processed event — membership iff the substrate
records the fan-in relation — and each consumer appears at most once,
provided every delivered fan-in list is free of repeated fan-in nodes (the
hooks themselves perform no duplicate suppression, so a node using the
same fan-in on two ports would be recorded twice). -/
theorem C1_incremental_exactness (sub F : List (List Nat))
    (es : List MutEvent) (h : ExactF sub F) (hv : validSeq sub es) :
    ExactF (es.foldl applyMut sub) (es.foldl applyHook F) := by
  induction es generalizing sub F with
  | nil => exact h
  | cons e es ih =>
    rw [List.foldl_cons, List.foldl_cons]
    exact ih (applyMut sub e) (applyHook F e) (exact_step sub F e h hv.1) hv.2

/-- Witness for C1: a fresh node is added over input 0, rewired onto the
same input, and finally deleted; the table stays exact throughout. -/
theorem C1_witness :
    ExactF [[], []] [[], []] ∧
    validSeq [[], []]
      [MutEvent.addNode 1 [0], MutEvent.modifyNode 1 [0] [0],
       MutEvent.deleteNode 1 [0]] ∧
    ExactF
      ([MutEvent.addNode 1 [0], MutEvent.modifyNode 1 [0] [0],
        MutEvent.deleteNode 1 [0]].foldl applyMut [[], []])
      ([MutEvent.addNode 1 [0], MutEvent.modifyNode 1 [0] [0],
        MutEvent.deleteNode 1 [0]].foldl applyHook [[], []]) :=
  ⟨by decide, by decide,
   C1_incremental_exactness [[], []] [[], []] _ (by decide) (by decide)⟩

/-- Counterexample to C1 as stated: from an exact state, an add event for
the fresh node 1 whose fan-in list uses node 0 on two ports makes the
on-add hook record consumer 1 twice in the fan-out list of 0 — the claimed
at-most-once property fails and duplicate suppression would in fact be
needed in the on-add hook for repeated ports. -/
theorem C1_counterexample :
    ExactF [[], []] [[], []] ∧
    ([[], []] : List (List Nat)).getD 1 [] = [] ∧
    (applyMut [[], []] (MutEvent.addNode 1 [0, 0])).getD 1 [] = [0, 0] ∧
    (applyHook [[], []] (MutEvent.addNode 1 [0, 0])).getD 0 [] = [1, 1] ∧
    ¬ ((applyHook [[], []] (MutEvent.addNode 1 [0, 0])).getD 0 []).Nodup := by
  decide

theorem map_eq_self_of {α : Type} (f : α → α) :
    ∀ (l : List α), (∀ x ∈ l, f x = x) → l.map f = l := by
  intro l
  induction l with
  | nil => intro _; rfl
  | cons a t ih =>
    intro h
    rw [List.map_cons, h a (List.mem_cons_self a t),
      ih (fun x hx => h x (List.mem_cons_of_mem a hx))]

theorem composeSig_node_ne (oldN : Nat) (s t : Signal) (hs : s.node ≠ oldN) :
    (composeSig oldN s t).node ≠ oldN := by
  unfold composeSig
  split
  · exact hs
  · next h => exact h

theorem mem_on_modified (F : List (List Nat)) (m : Nat) (prev cur : List Nat)
    (x : Nat) (hx : x ≠ m) (c : Nat) :
    x ∈ (on_modified_hook F m prev cur).getD c [] ↔ x ∈ F.getD c [] := by
  unfold on_modified_hook
  exact Iff.trans
    (mem_getD_foldUpd (fun l => l ++ [m]) x
      (fun l => by
        rw [List.mem_append, List.mem_singleton]
        exact ⟨fun h => h.resolve_right hx, Or.inl⟩)
      cur _ c)
    (mem_getD_foldUpd (eraseAll m) x
      (fun l => by
        rw [mem_eraseAll]
        exact ⟨fun h => h.1, fun h => ⟨h, hx⟩⟩)
      prev F c)

theorem substFold_shape (oldN : Nat) (s : Signal) :
    ∀ (ps : List Nat) (st : Network × List (List Nat)),
      (ps.foldl (substParent oldN s) st).1.outputs = st.1.outputs ∧
      (ps.foldl (substParent oldN s) st).1.fanins.length =
        st.1.fanins.length ∧
      (ps.foldl (substParent oldN s) st).2.length = st.2.length := by
  intro ps
  induction ps with
  | nil => intro st; exact ⟨rfl, rfl, rfl⟩
  | cons p rest ih =>
    intro st
    rw [List.foldl_cons]
    rcases ih (substParent oldN s st p) with ⟨h1, h2, h3⟩
    refine ⟨?_, ?_, ?_⟩
    · rw [h1]; rfl
    · rw [h2]
      show (st.1.fanins.set p
        ((st.1.fanins.getD p []).map (composeSig oldN s))).length = _
      rw [List.length_set]
    · rw [h3]
      exact length_on_modified _ _ _ _

theorem substFold_fanins (oldN : Nat) (s : Signal) :
    ∀ (ps : List Nat) (st : Network × List (List Nat)), ps.Nodup →
      (∀ p ∈ ps, p < st.1.fanins.length) → ∀ m,
      (ps.foldl (substParent oldN s) st).1.fanins.getD m [] =
        if m ∈ ps then (st.1.fanins.getD m []).map (composeSig oldN s)
        else st.1.fanins.getD m [] := by
  intro ps
  induction ps with
  | nil =>
    intro st _ _ m
    rw [if_neg (List.not_mem_nil m)]
    rfl
  | cons p rest ih =>
    intro st hnd hps m
    rw [List.foldl_cons]
    have hp : p < st.1.fanins.length := hps p (List.mem_cons_self p rest)
    have hst1 : (substParent oldN s st p).1.fanins =
        st.1.fanins.set p ((st.1.fanins.getD p []).map (composeSig oldN s)) :=
      rfl
    have hlen1 : (substParent oldN s st p).1.fanins.length =
        st.1.fanins.length := by
      rw [hst1, List.length_set]
    rw [ih (substParent oldN s st p) (List.nodup_cons.mp hnd).2
      (fun q hq => by rw [hlen1]; exact hps q (List.mem_cons_of_mem p hq)) m]
    by_cases hmp : m = p
    · subst hmp
      have hmr : m ∉ rest := (List.nodup_cons.mp hnd).1
      rw [if_neg hmr, if_pos (List.mem_cons_self m rest), hst1]
      exact getD_set_self _ _ _ m hp
    · have hent : (substParent oldN s st p).1.fanins.getD m [] =
          st.1.fanins.getD m [] := by
        rw [hst1]
        exact getD_set_ne _ _ _ p m (fun h => hmp h.symm)
      rw [hent]
      by_cases hmr : m ∈ rest
      · rw [if_pos hmr, if_pos (List.mem_cons_of_mem p hmr)]
      · rw [if_neg hmr, if_neg (by
          rw [List.mem_cons]
          push_neg
          exact ⟨hmp, hmr⟩)]

theorem substFold_F_mem (oldN : Nat) (s : Signal) (x : Nat) :
    ∀ (ps : List Nat) (st : Network × List (List Nat)), x ∉ ps → ∀ c,
      (x ∈ (ps.foldl (substParent oldN s) st).2.getD c [] ↔
        x ∈ st.2.getD c []) := by
  intro ps
  induction ps with
  | nil => intro st _ c; exact Iff.rfl
  | cons p rest ih =>
    intro st hx c
    rw [List.foldl_cons]
    have hxp : x ≠ p := fun h => hx (h ▸ List.mem_cons_self p rest)
    have hxr : x ∉ rest := fun h => hx (List.mem_cons_of_mem p h)
    rw [ih (substParent oldN s st p) hxr c]
    exact mem_on_modified st.2 p (gateFanins st.1 p)
      (gateFanins (replace_in_node st.1 p oldN s) p) x hxp c

/-- C7: after `substitute_node(old, new_signal)` on a node triggering no
further retirement cascade, starting from an exact fan-out table: no
remaining node and no primary output references `old`; every node other
than `old` has its fan-in list rewritten pointwise by the XOR polarity
composition (which is the identity where `old` did not occur); `old`'s own
fan-ins are removed; and `old` is absent from every fan-out list. -/
theorem C7_substitution_integrity (N : Network) (F : List (List Nat))
    (oldN : Nat) (s : Signal) (hex : ExactF (subOf N) F)
    (hlt : oldN < N.size) (hsn : s.node ≠ oldN)
    (hself : oldN ∉ gateFanins N oldN) :
    (∀ m, oldN ∉ gateFanins (substitute_node N F oldN s).1 m) ∧
    (∀ t ∈ (substitute_node N F oldN s).1.outputs, t.node ≠ oldN) ∧
    (∀ m, m < N.size → m ≠ oldN →
      (substitute_node N F oldN s).1.fanins.getD m [] =
        (N.fanins.getD m []).map (composeSig oldN s)) ∧
    (substitute_node N F oldN s).1.fanins.getD oldN [] = [] ∧
    (substitute_node N F oldN s).2.getD oldN [] = [] ∧
    (∀ c, oldN ∉ (substitute_node N F oldN s).2.getD c []) := by
  obtain ⟨hlen0, hinv⟩ := hex
  have hlenF : F.length = N.size := by
    rw [hlen0]
    unfold subOf Network.size
    exact List.length_map _ _
  have holdF : oldN < F.length := by rw [hlenF]; exact hlt
  have hpar := hinv oldN holdF
  have hpnd : (F.getD oldN []).Nodup := hpar.1
  have hparlt : ∀ p ∈ F.getD oldN [], p < N.size := by
    intro p hp
    have h1 := (hpar.2.1 p hp).1
    rw [hlenF] at h1
    exact h1
  have hparfan : ∀ p ∈ F.getD oldN [], oldN ∈ gateFanins N p := by
    intro p hp
    have h2 := (hpar.2.1 p hp).2
    rw [getD_subOf] at h2
    exact h2
  have holdp : oldN ∉ F.getD oldN [] := fun h => hself (hparfan oldN h)
  have hshape := substFold_shape oldN s (F.getD oldN []) (N, F)
  have hfan := substFold_fanins oldN s (F.getD oldN []) (N, F) hpnd
    (fun p hp => hparlt p hp)
  have hFmem := substFold_F_mem oldN s oldN (F.getD oldN []) (N, F) holdp
  have hR1fan : (substitute_node N F oldN s).1.fanins =
      ((F.getD oldN []).foldl (substParent oldN s) (N, F)).1.fanins.set
        oldN [] := rfl
  have hR1out : (substitute_node N F oldN s).1.outputs =
      ((F.getD oldN []).foldl (substParent oldN s) (N, F)).1.outputs.map
        (composeSig oldN s) := rfl
  have hR2 : (substitute_node N F oldN s).2 =
      on_delete_hook
        ((F.getD oldN []).foldl (substParent oldN s) (N, F)).2 oldN
        (gateFanins
          (replace_in_outputs
            ((F.getD oldN []).foldl (substParent oldN s) (N, F)).1 oldN s)
          oldN) := rfl
  have hstold : ((F.getD oldN []).foldl (substParent oldN s) (N, F)).1.fanins.getD
      oldN [] = N.fanins.getD oldN [] := by
    rw [hfan oldN, if_neg holdp]
  have hfins2 : gateFanins
      (replace_in_outputs
        ((F.getD oldN []).foldl (substParent oldN s) (N, F)).1 oldN s)
      oldN = gateFanins N oldN := by
    show (((F.getD oldN []).foldl (substParent oldN s) (N, F)).1.fanins.getD
      oldN []).map Signal.node = gateFanins N oldN
    rw [hstold]
    rfl
  have hR1len : (substitute_node N F oldN s).1.fanins.length = N.size := by
    rw [hR1fan, List.length_set, hshape.2.1]
    rfl
  have hR2len : (substitute_node N F oldN s).2.length = F.length := by
    rw [hR2, length_on_delete, hshape.2.2]
  have hfoldlen2 :
      ((F.getD oldN []).foldl (substParent oldN s) (N, F)).2.length =
        F.length := hshape.2.2
  have hb : (substitute_node N F oldN s).1.fanins.getD oldN [] = [] := by
    rw [hR1fan]
    exact getD_set_self ([] : List Signal) [] _ oldN
      (by rw [hshape.2.1]; exact hlt)
  have hmap : ∀ m, m < N.size → m ≠ oldN →
      (substitute_node N F oldN s).1.fanins.getD m [] =
        (N.fanins.getD m []).map (composeSig oldN s) := by
    intro m hm hmo
    rw [hR1fan, getD_set_ne ([] : List Signal) [] _ oldN m
      (fun h => hmo h.symm), hfan m]
    by_cases hmp : m ∈ F.getD oldN []
    · rw [if_pos hmp]
    · rw [if_neg hmp]
      refine (map_eq_self_of (composeSig oldN s) _ ?_).symm
      intro t ht
      have hne : t.node ≠ oldN := by
        intro he
        have hmem : oldN ∈ gateFanins N m := List.mem_map.mpr ⟨t, ht, he⟩
        have h3 : m ∈ F.getD oldN [] := by
          apply (hinv oldN holdF).2.2 m (by rw [hlenF]; exact hm)
          rw [getD_subOf]
          exact hmem
        exact hmp h3
      unfold composeSig
      rw [if_neg hne]
  refine ⟨?_, ?_, hmap, hb, ?_, ?_⟩
  · intro m
    unfold gateFanins
    by_cases hm : m < N.size
    · by_cases hmo : m = oldN
      · rw [hmo, hb]
        simp
      · rw [hmap m hm hmo]
        intro hmem
        rcases List.mem_map.mp hmem with ⟨t1, ht1, hnode⟩
        rcases List.mem_map.mp ht1 with ⟨t0, _, ht0⟩
        rw [← ht0] at hnode
        exact composeSig_node_ne oldN s t0 hsn hnode
    · rw [getD_of_len_le ([] : List Signal) _ m
        (by rw [hR1len]; exact Nat.le_of_not_lt hm)]
      exact List.not_mem_nil oldN
  · intro t ht
    rw [hR1out] at ht
    rcases List.mem_map.mp ht with ⟨t0, _, ht0⟩
    rw [← ht0]
    exact composeSig_node_ne oldN s t0 hsn
  · rw [hR2, hfins2,
      getD_on_delete _ oldN _ hself (by rw [hfoldlen2]; exact holdF) oldN
        (by rw [hfoldlen2]; exact holdF),
      if_pos rfl]
  · intro c
    by_cases hc : c < F.length
    · rw [hR2, hfins2,
        getD_on_delete _ oldN _ hself (by rw [hfoldlen2]; exact holdF) c
          (by rw [hfoldlen2]; exact hc)]
      by_cases hcn : c = oldN
      · rw [if_pos hcn]
        exact List.not_mem_nil oldN
      · rw [if_neg hcn]
        by_cases hcf : c ∈ gateFanins N oldN
        · rw [if_pos hcf]
          exact not_mem_eraseAll oldN _
        · rw [if_neg hcf]
          intro hmem
          have h1 : oldN ∈ F.getD c [] := (hFmem c).mp hmem
          have h2 := ((hinv c hc).2.1 oldN h1).2
          rw [getD_subOf] at h2
          exact hcf h2
    · rw [getD_of_len_le ([] : List Nat) _ c
        (by rw [hR2len]; exact Nat.le_of_not_lt hc)]
      exact List.not_mem_nil oldN

/-- Witness for C7: retiring gate 2 of `netSubst` in favor of the inverted
input 0. -/
theorem C7_witness :
    ExactF (subOf netSubst) (compute_fanout netSubst) ∧
    ((∀ m, 2 ∉ gateFanins
        (substitute_node netSubst (compute_fanout netSubst) 2 ⟨0, true⟩).1 m) ∧
    (∀ t ∈ (substitute_node netSubst (compute_fanout netSubst) 2
        ⟨0, true⟩).1.outputs, t.node ≠ 2) ∧
    (∀ m, m < netSubst.size → m ≠ 2 →
      (substitute_node netSubst (compute_fanout netSubst) 2
          ⟨0, true⟩).1.fanins.getD m [] =
        (netSubst.fanins.getD m []).map (composeSig 2 ⟨0, true⟩)) ∧
    (substitute_node netSubst (compute_fanout netSubst) 2
      ⟨0, true⟩).1.fanins.getD 2 [] = [] ∧
    (substitute_node netSubst (compute_fanout netSubst) 2
      ⟨0, true⟩).2.getD 2 [] = [] ∧
    (∀ c, 2 ∉ (substitute_node netSubst (compute_fanout netSubst) 2
      ⟨0, true⟩).2.getD c [])) :=
  ⟨by decide,
   C7_substitution_integrity netSubst (compute_fanout netSubst) 2 ⟨0, true⟩
     (by decide) (by decide) (by decide) (by decide)⟩

end Mockturtle
